import Mathlib

/-!
# Verification of the glide installer core (`repo/installer.go`)

A shallow embedding of the dependency-resolution and vendoring core:
the package aggregator (`depsFromPackages`), the concurrent update
dispatcher (`ConcurrentUpdate`), the missing-package handler
(`NotFound` / `OnGopath`), the version reconciler
(`VersionHandler.SetVersion`) and the `Install` orchestration.

External collaborators (VCS operations, filesystem probes, the import
scanner) are passed in as explicit oracle parameters; each definition is
transcribed from the Go source, branch for branch.
-/

namespace Glide

/-- `cfg.Dependency`: the fields of a dependency record used by the
installer core (name, requested reference, resolved pin, repository and
VCS overrides, subpackages, OS/arch constraints). -/
structure Dependency where
  name : String
  reference : String
  pin : String
  repository : String
  vcsType : String
  subpackages : List String
  arch : List String
  os : List String
  deriving Repr, DecidableEq

/-- A dependency record carrying only a name and a requested reference,
with every other field zero-valued (as produced by Go struct literals). -/
def mkDep (n r : String) : Dependency :=
  { name := n, reference := r, pin := "", repository := "", vcsType := "",
    subpackages := [], arch := [], os := [] }

/-- `cfg.Lock`: one entry of a lockfile. -/
structure LockedDependency where
  name : String
  version : String
  repository : String
  vcsType : String
  subpackages : List String
  arch : List String
  os : List String
  deriving Repr, DecidableEq

/-- `cfg.Lockfile`: imports and dev imports, already resolved. -/
structure Lockfile where
  imports : List LockedDependency
  devImports : List LockedDependency
  deriving Repr, DecidableEq

/-- `cfg.Config`: the fields of the project configuration used by the
installer core. -/
structure Config where
  name : String
  ignore : List String
  imports : List Dependency
  devImports : List Dependency
  deriving Repr, DecidableEq

/-- Modelled from the spec: `cfg.Config.HasIgnore` (the `cfg` package is
not under `src/`). The spec describes "an ignore-list membership test
(by exact name or by path-prefix)". -/
def Config.HasIgnore (c : Config) (n : String) : Bool :=
  c.ignore.any (fun i => n == i || String.isPrefixOf (i ++ "/") n)

/-- Split a character list on `/` into segments. -/
def splitSlash (cs : List Char) : List (List Char) :=
  cs.foldr
    (fun c acc =>
      if c = '/' then [] :: acc
      else
        match acc with
        | [] => [[c]]
        | h :: t => (c :: h) :: t)
    [[]]

/-- Join character-list segments with `/` into a string. -/
def joinSlash (segs : List (List Char)) : String :=
  ⟨(segs.intersperse ['/']).flatten⟩

/-- Modelled from the spec: `util.NormalizeName` (the Package Name
Normalizer; the `util` package is not under `src/`). It "splits
an import path into (repository root, subpackage path)" as a pure,
deterministic function; following the spec's own aggregator example
(`"a/x"` has root `a` and subpackage `x`), the root is the first path
segment and the subpackage suffix is the remainder; a path equal to its
root yields an empty subpackage. -/
def NormalizeName (p : String) : String × String :=
  match splitSlash p.data with
  | [] => (p, "")
  | [r] => (⟨r⟩, "")
  | r :: rest => (⟨r⟩, joinSlash rest)

/-- Modelled from the spec: `util.GetRootFromPackage` (not under
`src/`), the repository-root half of the Package Name Normalizer. -/
def GetRootFromPackage (p : String) : String :=
  (NormalizeName p).1

/-- `depsFromPackages`, one step of its loop body: fold a single import
path into the accumulated record list. The Go source keys a `seen` map
by repository root aliasing pointers into the output slice; updating
through the pointer is transcribed as updating the (unique) record with
that name in place. The normalizer `norm` stands for
`util.NormalizeName`, an external collaborator. -/
def addPkg (norm : String → String × String) (deps : List Dependency) (p : String) :
    List Dependency :=
  if deps.any (fun d => d.name == (norm p).1) then
    if (norm p).2 ≠ "" then
      deps.map (fun d =>
        if d.name == (norm p).1 then
          { d with subpackages := d.subpackages ++ [(norm p).2] }
        else d)
    else deps
  else
    deps ++ [{ name := (norm p).1, reference := "", pin := "", repository := "",
               vcsType := "",
               subpackages := if (norm p).2 = "" then [] else [(norm p).2],
               arch := [], os := [] }]

/-- `depsFromPackages` (installer.go): aggregate an ordered list
of import paths into dependency records, one per repository root in
first-seen order, appending each non-empty subpackage suffix to its
root's record. -/
def depsFromPackages (norm : String → String × String) (pkgs : List String) :
    List Dependency :=
  pkgs.foldl (addPkg norm) []

/-- First-seen-order deduplication of a list (specification-side helper
for stating the aggregator's ordering guarantee). -/
def firstSeenAux (acc : List String) : List String → List String
  | [] => acc
  | x :: xs => firstSeenAux (if x ∈ acc then acc else acc ++ [x]) xs

/-- The distinct elements of a list in first-seen order. -/
def firstSeen (l : List String) : List String :=
  firstSeenAux [] l

/-- The subpackage suffix of an import path, or `none` when the path is
a bare repository root (specification-side helper). -/
def subOfPkg (norm : String → String × String) (p : String) : Option String :=
  if (norm p).2 = "" then none else some (norm p).2

/-- All non-empty subpackage suffixes contributed to a given repository
root by a package list, in order (specification-side helper). -/
def subsFor (norm : String → String × String) (rr : String) (pkgs : List String) :
    List String :=
  (pkgs.filter (fun p => (norm p).1 == rr)).filterMap (subOfPkg norm)

/-- Go `error` values as produced by this core: either a single error
message or `cli.NewMultiError(a, b)` combining two previously produced
errors (the dispatcher only ever combines pairwise). -/
inductive GoError where
  | simple (m : String)
  | multi (a b : GoError)
  deriving Repr, DecidableEq

/-- The individual messages inside a (possibly nested) combined error. -/
def GoError.msgs : GoError → List String
  | .simple m => [m]
  | .multi a b => a.msgs ++ b.msgs

/-- The messages of an optional error (`none` is Go's `nil` error). -/
def errMsgs : Option GoError → List String
  | none => []
  | some e => e.msgs

/-- One worker's error accumulation step in `ConcurrentUpdate`: the
first failure becomes `returnErr`, later failures are folded in with
`cli.NewMultiError(returnErr, err)` under the mutex. -/
def accumulateErr (acc : Option GoError) (m : String) : Option GoError :=
  match acc with
  | none => some (.simple m)
  | some e => some (.multi e (.simple m))

/-- `ConcurrentUpdate` (installer.go): every queued record is processed
exactly once by some worker; `order` is the completion order in which
the workers' `VcsUpdate` calls finish (an arbitrary permutation of the
input list — the pool guarantees no more). The oracle `upd` gives each
record's `VcsUpdate` outcome (`none` = success). The result is the list
of records attempted together with the accumulated combined error the
call returns after `wg.Wait()`. -/
def ConcurrentUpdate (upd : Dependency → Option String) (order : List Dependency) :
    List Dependency × Option GoError :=
  (order,
   order.foldl
     (fun acc dep =>
       match upd dep with
       | none => acc
       | some m => accumulateErr acc m)
     none)

/-- Convert one lockfile entry into the dependency record `Install`
builds from it (the lock's `Version` becomes the requested reference). -/
def lockToDep (l : LockedDependency) : Dependency :=
  { name := l.name, reference := l.version, pin := "", repository := l.repository,
    vcsType := l.vcsType, subpackages := l.subpackages, arch := l.arch, os := l.os }

/-- Modelled from the spec: `cfg.Config.DeDupe` (the `cfg` package is
not under `src/`); the spec asks only for "deduplication of its own
dependency list", kept here as first-occurrence-per-name. -/
def dedupeByName (ds : List Dependency) : List Dependency :=
  ds.foldl (fun acc d => if acc.any (fun x => x.name == d.name) then acc else acc ++ [d]) []

/-- `Installer.Install` (installer.go): build a fresh config whose own
imports and dev imports come from the lockfile entries, deduplicate,
no-op when the import set is empty, and otherwise run `ConcurrentUpdate`
over imports and dev imports. The Go source discards both
`ConcurrentUpdate` return values and returns a `nil` error; the model
keeps that behavior (the two dispatcher calls are bound and dropped).
`vendorErr` is the outcome of the `gpath.Vendor()` probe for the working
directory. -/
def Install (vendorErr : Option String) (lock : Lockfile) (conf : Config)
    (upd : Dependency → Option String) : Config × Option String :=
  match vendorErr with
  | some err => (conf, some err)
  | none =>
    let newConf : Config :=
      { name := conf.name, ignore := [],
        imports := dedupeByName (lock.imports.map lockToDep),
        devImports := dedupeByName (lock.devImports.map lockToDep) }
    if newConf.imports.length = 0 then (newConf, none)
    else
      let _ := ConcurrentUpdate upd newConf.imports
      let _ := ConcurrentUpdate upd newConf.devImports
      (newConf, none)

/-- `MissingPackageHandler` (installer.go): configuration of the
missing-package callbacks. -/
structure MissingPackageHandler where
  destination : String
  home : String
  cache : Bool
  cacheGopath : Bool
  useGopath : Bool
  rootPackage : String
  config : Config

/-- Oracle results for the external calls a single missing-package
callback invocation can make: the `os.Stat` probe of the destination,
the `VcsGet` fetch, the configured GOPATH entries, the per-entry
`os.Stat` probe of the source copy, and the `MkdirAll`/`CopyDir`
outcomes. -/
structure MPHEnv where
  destExists : Bool
  vcsGetRes : Option String
  gopaths : List String
  srcExists : String → Bool
  mkdirRes : Option String
  copyRes : Option String

/-- Observable outcome of a missing-package callback: the `(handled,
error)` pair the Go function returns, whether a remote fetch
(`VcsGet`) was attempted, whether a GOPATH copy was attempted, and the
`msg.Error` lines logged. -/
structure MPHResult where
  handled : Bool
  err : Option String
  fetched : Bool
  copied : Bool
  logged : List String
  deriving Repr, DecidableEq

/-- `MissingPackageHandler.NotFound` (installer.go): skip the project's
own root and ignored paths; treat an already-present destination as
handled; otherwise fetch the repository root with `VcsGet`. The root
function `ro` stands for `util.GetRootFromPackage`. -/
def NotFound (m : MissingPackageHandler) (env : MPHEnv) (ro : String → String)
    (pkg : String) : MPHResult :=
  let root := ro pkg
  if root = m.rootPackage then ⟨false, none, false, false, []⟩
  else if m.config.HasIgnore root || m.config.HasIgnore pkg then ⟨false, none, false, false, []⟩
  else if env.destExists then ⟨true, none, false, false, []⟩
  else
    match env.vcsGetRes with
    | some er => ⟨false, some er, true, false, []⟩
    | none => ⟨true, none, true, false, []⟩

/-- The `msg.Error` line `OnGopath` logs when no GOPATH entry holds the
package. -/
def gopathMissingMsg (pkg : String) : String :=
  "Could not locate " ++ pkg ++ " on the GOPATH, though it was found before."

/-- The GOPATH search loop of `OnGopath`: copy from the first entry
whose source directory exists; if none does, log an error and return
`(false, nil)`. -/
def onGopathLoop (env : MPHEnv) (pkg : String) : List String → MPHResult
  | [] => ⟨false, none, false, false, [gopathMissingMsg pkg]⟩
  | gp :: rest =>
    if env.srcExists gp then
      match env.mkdirRes with
      | some er => ⟨false, some er, false, true, []⟩
      | none =>
        match env.copyRes with
        | some er => ⟨false, some er, false, true, []⟩
        | none => ⟨true, none, false, true, []⟩
    else onGopathLoop env pkg rest

/-- `MissingPackageHandler.OnGopath` (installer.go): with the GOPATH
fallback disabled delegate to `NotFound`; otherwise apply the same
root/ignore skips and search the GOPATH entries for the package. -/
def OnGopath (m : MissingPackageHandler) (env : MPHEnv) (ro : String → String)
    (pkg : String) : MPHResult :=
  if !m.useGopath then NotFound m env ro pkg
  else
    let root := ro pkg
    if root = m.rootPackage then ⟨false, none, false, false, []⟩
    else if m.config.HasIgnore root || m.config.HasIgnore pkg then
      ⟨false, none, false, false, []⟩
    else onGopathLoop env pkg env.gopaths

/-- The mutable state of a `VersionHandler` (installer.go): the pinned
map `Deps`, the candidate map `Use`, the scanned set `Imported` and the
reported-conflicts set `Conflicts`. Go maps become functions with the
map's zero value (`nil` pointer resp. `false`) as default. -/
structure VHState where
  deps : String → Option Dependency
  use : String → Option Dependency
  imported : String → Bool
  conflicts : String → Bool

/-- The fresh state all four maps start from in `Update`/`List`. -/
def VHState.empty : VHState :=
  ⟨fun _ => none, fun _ => none, fun _ => false, fun _ => false⟩

/-- Go map assignment `m[k] = v`. -/
def mapInsert (m : String → Option Dependency) (k : String) (v : Dependency) :
    String → Option Dependency :=
  fun x => if x = k then some v else m x

/-- Go map assignment `m[k] = true` on a `map[string]bool`. -/
def setTrue (m : String → Bool) (k : String) : String → Bool :=
  fun x => if x = k then true else m x

/-- What `importer.Import(path)` returns for a root's local checkout:
the found flag, the declared requirements und the error. -/
structure ImportResult where
  found : Bool
  deps : List Dependency
  err : Option String
  deriving Repr, DecidableEq

/-- The candidate-registration loop of `SetVersion`'s import scan: every
scanned requirement with a non-empty reference is written into the
candidate map, later entries overwriting earlier ones of the same name. -/
def registerDeps (use : String → Option Dependency) (ds : List Dependency) :
    String → Option Dependency :=
  ds.foldl (fun u dep => if dep.reference ≠ "" then mapInsert u dep.name dep else u) use

/-- The import-scan block of `SetVersion` (installer.go lines 529-549):
if the root has not been scanned, mark it scanned, and on a successful
`importer.Import` register all its requirement candidates; an import
error becomes the call's (provisional) error result. Returns the
updated state and that provisional error. -/
def scanStep (ir : ImportResult) (root : String) (s : VHState) : VHState × Option String :=
  if s.imported root = false then
    let s1 := { s with imported := setTrue s.imported root }
    if ir.found && ir.err == none then
      ({ s1 with use := registerDeps s1.use ir.deps }, none)
    else if ir.err != none then (s1, ir.err)
    else (s1, none)
  else (s, none)

/-- The conflict warning string of `SetVersion` (its `fmt.Sprintf`). -/
def conflictMsg (root pin ref : String) : String :=
  "Conflict: " ++ root ++ " version is " ++ pin ++ ", but also asked for " ++ ref ++ "\n"

/-- The already-pinned branch of `SetVersion` (installer.go lines
551-566): dereference the candidate entry (`d.Use[root].Reference` — a
`nil` map entry makes Go panic, modelled as `none`), emit the conflict
warning once per distinct message, and return without touching the
pinned map. The result carries the new state, the returned error and
the warnings emitted by this call. -/
def pinnedBranch (s1 : VHState) (e : Option String) (root : String) (v : Dependency) :
    Option (VHState × Option String × List String) :=
  match s1.use root with
  | none => none
  | some u =>
    if u.reference != "" && u.reference != v.pin && u.reference != v.reference then
      if s1.conflicts (conflictMsg root v.pin u.reference) then some (s1, e, [])
      else
        some ({ s1 with conflicts := setTrue s1.conflicts (conflictMsg root v.pin u.reference) },
          e, [conflictMsg root v.pin u.reference])
    else some (s1, e, [])

/-- The not-yet-pinned branch of `SetVersion` (installer.go lines
568-580): without a candidate, no-op; with one, run `VcsVersion`
(outcome `vr`), let a failure replace the call's error result, and
commit the candidate into the pinned map. -/
def pinBranch (s1 : VHState) (e : Option String) (vr : Option String) (root : String) :
    Option (VHState × Option String × List String) :=
  match s1.use root with
  | none => some (s1, e, [])
  | some dep =>
    let e2 := match vr with | some er => some er | none => e
    some ({ s1 with deps := mapInsert s1.deps root dep }, e2, [])

/-- `VersionHandler.SetVersion` (installer.go lines 514-581): skip the
project's own root and ignored paths, run the import scan once per
root, then dispatch on whether the root is already pinned. `ro` stands
for `util.GetRootFromPackage`, `ir` for this call's `importer.Import`
outcome and `vr` for this call's `VcsVersion` outcome; `none` models
the nil-pointer panic of the pinned branch's candidate dereference. -/
def SetVersion (rp : String) (conf : Config) (ro : String → String)
    (ir : ImportResult) (vr : Option String) (pkg : String) (s : VHState) :
    Option (VHState × Option String × List String) :=
  if ro pkg = rp then some (s, none, [])
  else if conf.HasIgnore (ro pkg) || conf.HasIgnore pkg then some (s, none, [])
  else
    match s.deps (ro pkg) with
    | some v =>
      pinnedBranch (scanStep ir (ro pkg) s).1 (scanStep ir (ro pkg) s).2 (ro pkg) v
    | none =>
      pinBranch (scanStep ir (ro pkg) s).1 (scanStep ir (ro pkg) s).2 vr (ro pkg)

/-- One `SetVersion` invocation of a call sequence: the visited import
path together with this call's external outcomes. -/
structure Call where
  pkg : String
  ir : ImportResult
  vr : Option String

/-- Run a sequence of `SetVersion` calls, threading the handler state
and collecting all emitted conflict warnings; `none` as soon as one
call panics. -/
def runCalls (rp : String) (conf : Config) (ro : String → String) :
    List Call → VHState → Option (VHState × List String)
  | [], s => some (s, [])
  | c :: cs, s =>
    match SetVersion rp conf ro c.ir c.vr c.pkg s with
    | none => none
    | some (s', _, ws) =>
      match runCalls rp conf ro cs s' with
      | none => none
      | some (s'', ws') => some (s'', ws ++ ws')

/-- The conflict-observation condition of `SetVersion`'s already-pinned
branch, as a function of the call's inputs: `some m` exactly when the
call reaches the pinned branch and the candidate reference differs from
both the pin and the pinned record's reference, `m` being the conflict
message that situation formats. -/
def conflictObserved (rp : String) (conf : Config) (ro : String → String)
    (ir : ImportResult) (pkg : String) (s : VHState) : Option String :=
  if ro pkg = rp then none
  else if conf.HasIgnore (ro pkg) || conf.HasIgnore pkg then none
  else
    match s.deps (ro pkg) with
    | none => none
    | some v =>
      match (scanStep ir (ro pkg) s).1.use (ro pkg) with
      | none => none
      | some u =>
        if u.reference != "" && u.reference != v.pin && u.reference != v.reference then
          some (conflictMsg (ro pkg) v.pin u.reference)
        else none

/-- The pinned-implies-candidate invariant: every pinned root has a
candidate entry. -/
def Inv (s : VHState) : Prop :=
  ∀ r, (s.deps r).isSome = true → (s.use r).isSome = true

theorem scanStep_deps (ir : ImportResult) (root : String) (s : VHState) :
    ((scanStep ir root s).1).deps = s.deps := by
  unfold scanStep
  split_ifs <;> rfl

theorem scanStep_conflicts (ir : ImportResult) (root : String) (s : VHState) :
    ((scanStep ir root s).1).conflicts = s.conflicts := by
  unfold scanStep
  split_ifs <;> rfl

theorem registerDeps_isSome (u : String → Option Dependency) (ds : List Dependency)
    (r : String) (h : (u r).isSome = true) : ((registerDeps u ds) r).isSome = true := by
  induction ds generalizing u with
  | nil => exact h
  | cons d ds ih =>
    simp only [registerDeps, List.foldl_cons] at *
    apply ih
    split_ifs with hd
    · simp only [mapInsert]
      split_ifs <;> simp [h]
    · exact h

theorem scanStep_use_isSome (ir : ImportResult) (root : String) (s : VHState)
    (r : String) (h : (s.use r).isSome = true) :
    (((scanStep ir root s).1).use r).isSome = true := by
  unfold scanStep
  split_ifs with h1 h2 h3
  · exact registerDeps_isSome _ _ _ h
  · exact h
  · exact h
  · exact h

theorem pinnedBranch_char (s1 : VHState) (e : Option String) (root : String)
    (v : Dependency) (t : VHState × Option String × List String)
    (h : pinnedBranch s1 e root v = some t) :
    t.1.deps = s1.deps ∧ t.1.use = s1.use ∧
      ((t.2.2 = [] ∧ t.1.conflicts = s1.conflicts) ∨
        ∃ m, t.2.2 = [m] ∧ s1.conflicts m = false ∧ t.1.conflicts = setTrue s1.conflicts m) := by
  unfold pinnedBranch at h
  rcases hu : s1.use root with _ | u <;> rw [hu] at h <;> dsimp only at h
  · exact absurd h (by simp)
  · split_ifs at h with h1 h2
    · cases h
      exact ⟨rfl, rfl, Or.inl ⟨rfl, rfl⟩⟩
    · cases h
      refine ⟨rfl, rfl, Or.inr ⟨_, rfl, ?_, rfl⟩⟩
      simpa using h2
    · cases h
      exact ⟨rfl, rfl, Or.inl ⟨rfl, rfl⟩⟩

theorem pinBranch_char (s1 : VHState) (e : Option String) (vr : Option String)
    (root : String) (t : VHState × Option String × List String)
    (h : pinBranch s1 e vr root = some t) :
    t.1.use = s1.use ∧ t.1.conflicts = s1.conflicts ∧ t.2.2 = [] ∧
      ((s1.use root = none ∧ t.1.deps = s1.deps) ∨
        ∃ dep, s1.use root = some dep ∧ t.1.deps = mapInsert s1.deps root dep ∧
          (∀ er, vr = some er → t.2.1 = some er)) := by
  unfold pinBranch at h
  rcases hu : s1.use root with _ | dep <;> rw [hu] at h
  · cases h
    exact ⟨rfl, rfl, rfl, Or.inl ⟨rfl, rfl⟩⟩
  · cases h
    refine ⟨rfl, rfl, rfl, Or.inr ⟨dep, rfl, rfl, ?_⟩⟩
    intro er her
    simp [her]

theorem setVersion_deps_mono (rp : String) (conf : Config) (ro : String → String)
    (ir : ImportResult) (vr : Option String) (pkg : String) (s : VHState)
    (t : VHState × Option String × List String)
    (h : SetVersion rp conf ro ir vr pkg s = some t)
    (r : String) (d : Dependency) (hd : s.deps r = some d) : t.1.deps r = some d := by
  unfold SetVersion at h
  split_ifs at h with h1 h2
  · cases h; exact hd
  · cases h; exact hd
  · rcases hv : s.deps (ro pkg) with _ | v <;> rw [hv] at h
    · rcases pinBranch_char _ _ _ _ _ h with ⟨_, _, _, hcase⟩
      rcases hcase with ⟨_, hdeps⟩ | ⟨dep, _, hdeps, _⟩
      · rw [hdeps, scanStep_deps]; exact hd
      · rw [hdeps]
        unfold mapInsert
        split_ifs with hr
        · rw [hr] at hd; rw [hv] at hd; cases hd
        · rw [scanStep_deps]; exact hd
    · rcases pinnedBranch_char _ _ _ _ _ h with ⟨hdeps, _, _⟩
      rw [hdeps, scanStep_deps]; exact hd

theorem setVersion_total_inv (rp : String) (conf : Config) (ro : String → String)
    (ir : ImportResult) (vr : Option String) (pkg : String) (s : VHState)
    (hs : Inv s) :
    ∃ t, SetVersion rp conf ro ir vr pkg s = some t ∧ Inv t.1 := by
  unfold SetVersion
  split_ifs with h1 h2
  · exact ⟨_, rfl, hs⟩
  · exact ⟨_, rfl, hs⟩
  · have husemono : ∀ r, (s.use r).isSome = true →
        (((scanStep ir (ro pkg) s).1).use r).isSome = true :=
      fun r => scanStep_use_isSome ir (ro pkg) s r
    rcases hv : s.deps (ro pkg) with _ | v
    · unfold pinBranch
      rcases hu : ((scanStep ir (ro pkg) s).1).use (ro pkg) with _ | dep
      · refine ⟨_, rfl, ?_⟩
        intro r hr
        rw [scanStep_deps] at hr
        exact husemono r (hs r hr)
      · refine ⟨_, rfl, ?_⟩
        intro r hr
        dsimp only at hr ⊢
        unfold mapInsert at hr
        by_cases hreq : r = ro pkg
        · rw [hreq, hu]; rfl
        · rw [if_neg hreq, scanStep_deps] at hr
          exact husemono r (hs r hr)
    · unfold pinnedBranch
      have hu : (((scanStep ir (ro pkg) s).1).use (ro pkg)).isSome = true := by
        apply husemono
        exact hs _ (by rw [hv]; rfl)
      rcases hu2 : ((scanStep ir (ro pkg) s).1).use (ro pkg) with _ | u
      · rw [hu2] at hu; cases hu
      · dsimp only
        split_ifs with hc hd
        · refine ⟨_, rfl, ?_⟩
          intro r hr
          rw [scanStep_deps] at hr
          exact husemono r (hs r hr)
        · refine ⟨_, rfl, ?_⟩
          intro r hr
          dsimp only at hr ⊢
          rw [scanStep_deps] at hr
          exact husemono r (hs r hr)
        · refine ⟨_, rfl, ?_⟩
          intro r hr
          rw [scanStep_deps] at hr
          exact husemono r (hs r hr)

theorem setVersion_conflicts_step (rp : String) (conf : Config) (ro : String → String)
    (ir : ImportResult) (vr : Option String) (pkg : String) (s : VHState)
    (t : VHState × Option String × List String)
    (h : SetVersion rp conf ro ir vr pkg s = some t) :
    (t.2.2 = [] ∧ t.1.conflicts = s.conflicts) ∨
      ∃ m, t.2.2 = [m] ∧ s.conflicts m = false ∧ t.1.conflicts = setTrue s.conflicts m := by
  unfold SetVersion at h
  split_ifs at h with h1 h2
  · cases h; exact Or.inl ⟨rfl, rfl⟩
  · cases h; exact Or.inl ⟨rfl, rfl⟩
  · rcases hv : s.deps (ro pkg) with _ | v <;> rw [hv] at h
    · rcases pinBranch_char _ _ _ _ _ h with ⟨_, hconf, hw, _⟩
      rw [scanStep_conflicts] at hconf
      exact Or.inl ⟨hw, hconf⟩
    · rcases pinnedBranch_char _ _ _ _ _ h with ⟨_, _, hcase⟩
      rw [scanStep_conflicts] at hcase
      exact hcase

theorem setTrue_apply (f : String → Bool) (k x : String) :
    setTrue f k x = if x = k then true else f x := rfl

theorem runCalls_append (rp : String) (conf : Config) (ro : String → String)
    (cs1 cs2 : List Call) (s : VHState) :
    runCalls rp conf ro (cs1 ++ cs2) s =
      match runCalls rp conf ro cs1 s with
      | none => none
      | some (s', ws) =>
        match runCalls rp conf ro cs2 s' with
        | none => none
        | some (s'', ws') => some (s'', ws ++ ws') := by
  induction cs1 generalizing s with
  | nil =>
    cases h : runCalls rp conf ro cs2 s <;> simp [runCalls, h]
  | cons c cs ih =>
    simp only [List.cons_append, runCalls, List.append_eq]
    cases hsv : SetVersion rp conf ro c.ir c.vr c.pkg s with
    | none => rfl
    | some t =>
      obtain ⟨s', e, ws⟩ := t
      dsimp only
      rw [ih s']
      cases h1 : runCalls rp conf ro cs s' with
      | none => rfl
      | some p =>
        obtain ⟨s1, ws1⟩ := p
        dsimp only
        cases h2 : runCalls rp conf ro cs2 s1 with
        | none => rfl
        | some p2 =>
          obtain ⟨s2, ws2⟩ := p2
          dsimp only
          rw [List.append_assoc]

theorem runCalls_total_inv (rp : String) (conf : Config) (ro : String → String)
    (cs : List Call) (s : VHState) (hs : Inv s) :
    ∃ p, runCalls rp conf ro cs s = some p ∧ Inv p.1 := by
  induction cs generalizing s with
  | nil => exact ⟨(s, []), rfl, hs⟩
  | cons c cs ih =>
    obtain ⟨t, ht, hinv⟩ := setVersion_total_inv rp conf ro c.ir c.vr c.pkg s hs
    obtain ⟨s', e, ws⟩ := t
    obtain ⟨p, hp, hpinv⟩ := ih s' hinv
    obtain ⟨s'', ws'⟩ := p
    refine ⟨(s'', ws ++ ws'), ?_, hpinv⟩
    simp only [runCalls, ht, hp]

theorem runCalls_deps_mono (rp : String) (conf : Config) (ro : String → String)
    (cs : List Call) (r : String) (d : Dependency) :
    ∀ (s : VHState) (p : VHState × List String), runCalls rp conf ro cs s = some p →
      s.deps r = some d → p.1.deps r = some d := by
  induction cs with
  | nil => intro s p h hd; cases h; exact hd
  | cons c cs ih =>
    intro s p h hd
    simp only [runCalls] at h
    cases hsv : SetVersion rp conf ro c.ir c.vr c.pkg s with
    | none => rw [hsv] at h; cases h
    | some t =>
      rw [hsv] at h
      obtain ⟨s', e, ws⟩ := t
      dsimp only at h
      cases h2 : runCalls rp conf ro cs s' with
      | none => rw [h2] at h; cases h
      | some p2 =>
        rw [h2] at h
        obtain ⟨s'', ws'⟩ := p2
        dsimp only at h
        cases h
        exact (ih s' (s'', ws') h2 (setVersion_deps_mono rp conf ro c.ir c.vr c.pkg s _ hsv r d hd))

theorem runCalls_conflicts_trace (rp : String) (conf : Config) (ro : String → String)
    (cs : List Call) :
    ∀ (s : VHState) (p : VHState × List String), runCalls rp conf ro cs s = some p →
      p.2.Nodup ∧ (∀ m, m ∈ p.2 → s.conflicts m = false) ∧
        (∀ m, p.1.conflicts m = true ↔ (s.conflicts m = true ∨ m ∈ p.2)) := by
  induction cs with
  | nil =>
    intro s p h
    cases h
    simp
  | cons c cs ih =>
    intro s p h
    simp only [runCalls] at h
    cases hsv : SetVersion rp conf ro c.ir c.vr c.pkg s with
    | none => rw [hsv] at h; cases h
    | some t =>
      rw [hsv] at h
      obtain ⟨s', e, ws⟩ := t
      dsimp only at h
      cases h2 : runCalls rp conf ro cs s' with
      | none => rw [h2] at h; cases h
      | some p2 =>
        rw [h2] at h
        obtain ⟨s'', ws'⟩ := p2
        dsimp only at h
        cases h
        obtain ⟨hnd, hfresh, hiff⟩ := ih s' (s'', ws') h2
        rcases setVersion_conflicts_step rp conf ro c.ir c.vr c.pkg s _ hsv with
          ⟨hws, hconf⟩ | ⟨m0, hws, hm0, hconf⟩
        · dsimp only at hws ⊢
          rw [hws]
          simp only [List.nil_append]
          refine ⟨hnd, ?_, ?_⟩
          · intro m hm
            have := hfresh m hm
            rwa [hconf] at this
          · intro m
            rw [hiff m, hconf]
        · dsimp only at hws ⊢
          rw [hws]
          have hsplit : ∀ m, s'.conflicts m = false → m ≠ m0 ∧ s.conflicts m = false := by
            intro m hm
            rw [hconf, setTrue_apply] at hm
            by_cases hmm : m = m0
            · rw [if_pos hmm] at hm; cases hm
            · rw [if_neg hmm] at hm; exact ⟨hmm, hm⟩
          refine ⟨?_, ?_, ?_⟩
          · refine List.nodup_cons.mpr ⟨?_, hnd⟩
            intro hmem
            have := hfresh m0 hmem
            rw [hconf, setTrue_apply, if_pos rfl] at this
            cases this
          · intro m hm
            rcases List.mem_cons.mp hm with hm | hm
            · rw [hm]; exact hm0
            · exact (hsplit m (hfresh m hm)).2
          · intro m
            rw [hiff m, hconf, setTrue_apply]
            by_cases hmm : m = m0
            · simp [hmm]
            · simp [if_neg hmm, hmm]

theorem onGopathLoop_miss (env : MPHEnv) (pkg : String) (l : List String)
    (h : ∀ gp ∈ l, env.srcExists gp = false) :
    onGopathLoop env pkg l = ⟨false, none, false, false, [gopathMissingMsg pkg]⟩ := by
  induction l with
  | nil => rfl
  | cons gp rest ih =>
    unfold onGopathLoop
    rw [if_neg (by rw [h gp (List.mem_cons_self gp rest)]; exact Bool.false_ne_true)]
    exact ih (fun g hg => h g (List.mem_cons_of_mem _ hg))

/-- A project configuration with nothing ignored (test fixture). -/
def conf0 : Config := ⟨"proj", [], [], []⟩

/-- C8: with the project's own root, or a root or path matching an
ignore rule, `SetVersion` returns no error and leaves the handler state
untouched (no scan, no pin, no record), `NotFound` returns
`(false, nil)` without attempting a fetch, and `OnGopath` with the
GOPATH fallback enabled returns `(false, nil)` without attempting a
copy. -/
theorem selfref_ignore_skip_C8 (m : MissingPackageHandler) (env : MPHEnv)
    (ro : String → String) (ir : ImportResult) (vr : Option String) (pkg : String)
    (s : VHState) (hUg : m.useGopath = true)
    (hSkip : ro pkg = m.rootPackage ∨ m.config.HasIgnore (ro pkg) = true ∨
      m.config.HasIgnore pkg = true) :
    SetVersion m.rootPackage m.config ro ir vr pkg s = some (s, none, []) ∧
      NotFound m env ro pkg = ⟨false, none, false, false, []⟩ ∧
      OnGopath m env ro pkg = ⟨false, none, false, false, []⟩ := by
  unfold SetVersion NotFound OnGopath
  rcases hSkip with h | h | h
  · simp [h, hUg]
  · by_cases hr : ro pkg = m.rootPackage <;> simp [h, hr, hUg]
  · by_cases hr : ro pkg = m.rootPackage <;> simp [h, hr, hUg]

/-- C8 witness: the skip result at a concrete self-referencing call. -/
theorem selfref_ignore_skip_C8_witness :
    SetVersion "proj" conf0 GetRootFromPackage ⟨true, [], none⟩ none "proj" VHState.empty =
        some (VHState.empty, none, []) ∧
      NotFound ⟨"v", "", false, false, true, "proj", conf0⟩
          ⟨false, none, [], fun _ => false, none, none⟩ GetRootFromPackage "proj" =
        ⟨false, none, false, false, []⟩ ∧
      OnGopath ⟨"v", "", false, false, true, "proj", conf0⟩
          ⟨false, none, [], fun _ => false, none, none⟩ GetRootFromPackage "proj" =
        ⟨false, none, false, false, []⟩ :=
  selfref_ignore_skip_C8 ⟨"v", "", false, false, true, "proj", conf0⟩
    ⟨false, none, [], fun _ => false, none, none⟩ GetRootFromPackage
    ⟨true, [], none⟩ none "proj" VHState.empty rfl (Or.inl (by decide))

/-- C9 counterexample: with the GOPATH fallback enabled, a package that
passes the root/ignore checks but is in no configured GOPATH entry makes
`OnGopath` log an error message yet return `handled = false` with a
`nil` error — refuting the claim that the returned error value is
non-nil in this situation. -/
theorem ongopath_miss_C9_counterexample :
    OnGopath ⟨"v", "", false, false, true, "proj", conf0⟩
        ⟨false, none, ["gp1"], fun _ => false, none, none⟩ GetRootFromPackage "a/b" =
      ⟨false, none, false, false, [gopathMissingMsg "a/b"]⟩ := by
  decide

/-- C9 (amended): when the GOPATH fallback is enabled, the import path
passes the root and ignore checks, and no configured GOPATH entry
contains the package, `OnGopath` logs the could-not-locate error message
and returns `handled = false` with a `nil` error value (the Go source
returns `false, nil` after `msg.Error`). -/
theorem ongopath_miss_C9 (m : MissingPackageHandler) (env : MPHEnv)
    (ro : String → String) (pkg : String) (hUg : m.useGopath = true)
    (h1 : ro pkg ≠ m.rootPackage)
    (h2 : m.config.HasIgnore (ro pkg) = false) (h3 : m.config.HasIgnore pkg = false)
    (h4 : ∀ gp ∈ env.gopaths, env.srcExists gp = false) :
    OnGopath m env ro pkg = ⟨false, none, false, false, [gopathMissingMsg pkg]⟩ := by
  unfold OnGopath
  rw [hUg]
  simp only [Bool.not_true, Bool.false_eq_true, if_false]
  rw [if_neg h1, if_neg (by simp [h2, h3])]
  exact onGopathLoop_miss env pkg env.gopaths h4

/-- C9 witness: the amended behavior at a concrete missing package. -/
theorem ongopath_miss_C9_witness :
    OnGopath ⟨"vendor", "", false, false, true, "proj", conf0⟩
        ⟨false, none, ["gp1", "gp2"], fun _ => false, none, none⟩ GetRootFromPackage "c/d" =
      ⟨false, none, false, false, [gopathMissingMsg "c/d"]⟩ :=
  ongopath_miss_C9 ⟨"vendor", "", false, false, true, "proj", conf0⟩
    ⟨false, none, ["gp1", "gp2"], fun _ => false, none, none⟩ GetRootFromPackage "c/d"
    rfl (by decide) (by decide) (by decide) (by decide)

theorem Inv_empty : Inv VHState.empty := by
  intro r hr
  cases hr

/-- C1: pin monotonicity — starting from the fresh handler state, once a
sequence of `SetVersion` calls has committed an entry for a root into
the pinned map, any continuation of the sequence leaves that entry (and
hence its pinned reference) unchanged, whatever candidates later scans
register. -/
theorem pin_monotonic_C1 (rp : String) (conf : Config) (ro : String → String)
    (cs1 cs2 : List Call) (root : String) (d : Dependency)
    (h : (runCalls rp conf ro cs1 VHState.empty).map (fun p => p.1.deps root) =
      some (some d)) :
    (runCalls rp conf ro (cs1 ++ cs2) VHState.empty).map (fun p => p.1.deps root) =
      some (some d) := by
  cases h1 : runCalls rp conf ro cs1 VHState.empty with
  | none => rw [h1] at h; cases h
  | some p1 =>
    rw [h1] at h
    simp only [Option.map_some', Option.some.injEq] at h
    obtain ⟨p, hp, hpinv⟩ := runCalls_total_inv rp conf ro cs1 VHState.empty Inv_empty
    rw [h1] at hp
    cases hp
    obtain ⟨s1, ws1⟩ := p1
    obtain ⟨p2, hp2, _⟩ := runCalls_total_inv rp conf ro cs2 s1 hpinv
    obtain ⟨s2, ws2⟩ := p2
    rw [runCalls_append, h1]
    dsimp only
    rw [hp2]
    dsimp only [Option.map_some']
    simp only [Option.some.injEq]
    exact runCalls_deps_mono rp conf ro cs2 root d s1 (s2, ws2) hp2 h

/-- C1 witness: after a call pinning root `a`, a further call whose scan
proposes a different candidate for `a` leaves the pin unchanged. -/
theorem pin_monotonic_C1_witness :
    (runCalls "proj" conf0 GetRootFromPackage
        [⟨"a", ⟨true, [mkDep "a" "r1"], none⟩, none⟩,
         ⟨"b", ⟨true, [mkDep "a" "r2", mkDep "b" "rb"], none⟩, none⟩]
        VHState.empty).map (fun p => p.1.deps "a") = some (some (mkDep "a" "r1")) :=
  pin_monotonic_C1 "proj" conf0 GetRootFromPackage
    [⟨"a", ⟨true, [mkDep "a" "r1"], none⟩, none⟩]
    [⟨"b", ⟨true, [mkDep "a" "r2", mkDep "b" "rb"], none⟩, none⟩]
    "a" (mkDep "a" "r1") (by decide)

/-- C10: from the fresh state no sequence of `SetVersion` calls ever
reaches the nil-pointer dereference of the already-pinned branch (the
run never panics), because every root present in the pinned map also has
a candidate-map entry. -/
theorem pinned_has_candidate_C10 (rp : String) (conf : Config) (ro : String → String)
    (cs : List Call) (r : String) :
    (runCalls rp conf ro cs VHState.empty).isSome = true ∧
      ((runCalls rp conf ro cs VHState.empty).map (fun p => (p.1.deps r).isSome) =
          some true →
        (runCalls rp conf ro cs VHState.empty).map (fun p => (p.1.use r).isSome) =
          some true) := by
  obtain ⟨p, hp, hpinv⟩ := runCalls_total_inv rp conf ro cs VHState.empty Inv_empty
  rw [hp]
  refine ⟨rfl, ?_⟩
  intro h
  simp only [Option.map_some', Option.some.injEq] at h ⊢
  exact hpinv r h

/-- C10 witness: a concrete two-call run that pins `a` and has a
candidate entry for it. -/
theorem pinned_has_candidate_C10_witness :
    (runCalls "proj" conf0 GetRootFromPackage
        [⟨"a", ⟨true, [mkDep "a" "r1"], none⟩, none⟩, ⟨"a", ⟨true, [], none⟩, none⟩]
        VHState.empty).isSome = true ∧
      (runCalls "proj" conf0 GetRootFromPackage
        [⟨"a", ⟨true, [mkDep "a" "r1"], none⟩, none⟩, ⟨"a", ⟨true, [], none⟩, none⟩]
        VHState.empty).map (fun p => (p.1.use "a").isSome) = some true :=
  ⟨(pinned_has_candidate_C10 "proj" conf0 GetRootFromPackage
      [⟨"a", ⟨true, [mkDep "a" "r1"], none⟩, none⟩, ⟨"a", ⟨true, [], none⟩, none⟩] "a").1,
   (pinned_has_candidate_C10 "proj" conf0 GetRootFromPackage
      [⟨"a", ⟨true, [mkDep "a" "r1"], none⟩, none⟩, ⟨"a", ⟨true, [], none⟩, none⟩] "a").2
     (by decide)⟩

/-- C3 counterexample: after a first call pins root `a` with candidate
reference `r1`, a second call for root `b` — whose import scan declares
`a` at `r2` — changes the candidate-map entry of the already-pinned root
`a` from `r1` to `r2`, refuting the claim that a pinned root's
candidate-map entry is never changed. -/
theorem pinned_candidate_overwritten_C3_counterexample :
    (runCalls "proj" conf0 GetRootFromPackage
        [⟨"a", ⟨true, [mkDep "a" "r1"], none⟩, none⟩] VHState.empty).map
      (fun p => (p.1.deps "a", p.1.use "a")) =
        some (some (mkDep "a" "r1"), some (mkDep "a" "r1")) ∧
    (runCalls "proj" conf0 GetRootFromPackage
        [⟨"a", ⟨true, [mkDep "a" "r1"], none⟩, none⟩,
         ⟨"b", ⟨true, [mkDep "a" "r2", mkDep "b" "rb"], none⟩, none⟩]
        VHState.empty).map (fun p => (p.1.deps "a", p.1.use "a")) =
        some (some (mkDep "a" "r1"), some (mkDep "a" "r2")) := by
  decide

/-- C3 (amended): later scans overwrite the candidate-map entry of any
root with a non-empty scanned reference, whether or not that root is
already pinned; what is immune to further change is the pinned-map entry
itself — a `SetVersion` call that completes never alters an existing
pinned entry. -/
theorem pinned_entry_immune_C3 (rp : String) (conf : Config) (ro : String → String)
    (ir : ImportResult) (vr : Option String) (pkg : String) (s : VHState)
    (root : String) (d : Dependency) (hd : s.deps root = some d)
    (hsome : (SetVersion rp conf ro ir vr pkg s).isSome = true) :
    (SetVersion rp conf ro ir vr pkg s).map (fun t => t.1.deps root) = some (some d) := by
  cases h : SetVersion rp conf ro ir vr pkg s with
  | none => rw [h] at hsome; cases hsome
  | some t =>
    simp only [Option.map_some', Option.some.injEq]
    exact setVersion_deps_mono rp conf ro ir vr pkg s t h root d hd

/-- C3 witness: the pinned entry for `a` survives a call that rewrites
`a`'s candidate. -/
theorem pinned_entry_immune_C3_witness :
    (SetVersion "proj" conf0 GetRootFromPackage ⟨true, [mkDep "a" "r2"], none⟩ none "b"
        ⟨mapInsert VHState.empty.deps "a" (mkDep "a" "r1"),
         mapInsert VHState.empty.use "a" (mkDep "a" "r1"),
         setTrue VHState.empty.imported "a", VHState.empty.conflicts⟩).map
      (fun t => t.1.deps "a") = some (some (mkDep "a" "r1")) :=
  pinned_entry_immune_C3 "proj" conf0 GetRootFromPackage ⟨true, [mkDep "a" "r2"], none⟩
    none "b"
    ⟨mapInsert VHState.empty.deps "a" (mkDep "a" "r1"),
     mapInsert VHState.empty.use "a" (mkDep "a" "r1"),
     setTrue VHState.empty.imported "a", VHState.empty.conflicts⟩
    "a" (mkDep "a" "r1") (by decide) (by decide)

/-- C4 counterexample: a first visit of root `a` with candidate `r1`
whose `VcsVersion` call fails still writes the candidate into the pinned
map while surfacing the failure as `SetVersion`'s error, refuting the
claim that the pinned map gains no entry when the version-set operation
fails. -/
theorem pin_commit_C4_counterexample :
    (SetVersion "proj" conf0 GetRootFromPackage ⟨true, [mkDep "a" "r1"], none⟩
        (some "vcs failed") "a" VHState.empty).map
      (fun t => (t.1.deps "a", t.2.1)) =
      some (some (mkDep "a" "r1"), some "vcs failed") := by
  decide

/-- C4 (amended): when a root is not yet pinned and the post-scan
candidate map holds a candidate for it, `SetVersion` invokes the
external version-set operation and commits the candidate into the
pinned map regardless of that operation's outcome; on failure, the
failure is surfaced as `SetVersion`'s error result (and the pinned map
still gains the entry). -/
theorem pin_commit_C4 (rp : String) (conf : Config) (ro : String → String)
    (ir : ImportResult) (vr : Option String) (pkg : String) (s : VHState)
    (dep : Dependency) (h1 : ro pkg ≠ rp)
    (h2 : conf.HasIgnore (ro pkg) = false) (h3 : conf.HasIgnore pkg = false)
    (h4 : s.deps (ro pkg) = none)
    (h5 : (scanStep ir (ro pkg) s).1.use (ro pkg) = some dep) :
    (SetVersion rp conf ro ir vr pkg s).map (fun t => t.1.deps (ro pkg)) =
        some (some dep) ∧
      (∀ er, vr = some er →
        (SetVersion rp conf ro ir vr pkg s).map (fun t => t.2.1) = some (some er)) := by
  unfold SetVersion
  rw [if_neg h1, if_neg (by simp [h2, h3]), h4]
  unfold pinBranch
  rw [h5]
  constructor
  · simp [mapInsert]
  · intro er her
    simp [her]

/-- C4 witness: the amended behavior at the concrete failing call. -/
theorem pin_commit_C4_witness :
    (SetVersion "proj" conf0 GetRootFromPackage ⟨true, [mkDep "a" "rr"], none⟩
        (some "boom") "a" VHState.empty).map (fun t => t.1.deps "a") =
        some (some (mkDep "a" "rr")) ∧
      (SetVersion "proj" conf0 GetRootFromPackage ⟨true, [mkDep "a" "rr"], none⟩
        (some "boom") "a" VHState.empty).map (fun t => t.2.1) = some (some "boom") :=
  ⟨(pin_commit_C4 "proj" conf0 GetRootFromPackage ⟨true, [mkDep "a" "rr"], none⟩
      (some "boom") "a" VHState.empty (mkDep "a" "rr") (by decide) (by decide)
      (by decide) (by decide) (by decide)).1,
   (pin_commit_C4 "proj" conf0 GetRootFromPackage ⟨true, [mkDep "a" "rr"], none⟩
      (some "boom") "a" VHState.empty (mkDep "a" "rr") (by decide) (by decide)
      (by decide) (by decide) (by decide)).2 "boom" rfl⟩

theorem setVersion_observed_emit (rp : String) (conf : Config) (ro : String → String)
    (ir : ImportResult) (vr : Option String) (pkg : String) (s : VHState) (m : String)
    (hobs : conflictObserved rp conf ro ir pkg s = some m) :
    (s.conflicts m = false →
        (SetVersion rp conf ro ir vr pkg s).map (fun t => t.2.2) = some [m]) ∧
      (s.conflicts m = true →
        (SetVersion rp conf ro ir vr pkg s).map (fun t => t.2.2) = some []) ∧
      (SetVersion rp conf ro ir vr pkg s).map (fun t => t.1.conflicts m) = some true := by
  unfold conflictObserved at hobs
  unfold SetVersion
  by_cases h1 : ro pkg = rp
  · rw [if_pos h1] at hobs; cases hobs
  rw [if_neg h1] at hobs ⊢
  by_cases h2 : (conf.HasIgnore (ro pkg) || conf.HasIgnore pkg) = true
  · rw [if_pos h2] at hobs; cases hobs
  rw [if_neg h2] at hobs ⊢
  rcases hv : s.deps (ro pkg) with _ | v
  · simp [hv] at hobs
  · unfold pinnedBranch
    rcases hu : (scanStep ir (ro pkg) s).1.use (ro pkg) with _ | u
    · simp [hv, hu] at hobs
    · by_cases hc :
        (u.reference != "" && u.reference != v.pin && u.reference != v.reference) = true
      · simp only [hv, hu] at hobs
        rw [if_pos hc] at hobs
        cases hobs
        dsimp only
        rw [if_pos hc, scanStep_conflicts]
        split_ifs with hc2
        · refine ⟨fun hf => ?_, fun _ => rfl, ?_⟩
          · rw [hc2] at hf; cases hf
          · simp only [Option.map_some', Option.some.injEq]
            rw [scanStep_conflicts]
            exact hc2
        · refine ⟨fun _ => rfl, fun ht => absurd ht hc2, ?_⟩
          simp only [Option.map_some', Option.some.injEq]
          rw [setTrue_apply, if_pos rfl]
      · simp [hv, hu, hc] at hobs

/-- C2: conflict deduplication — (a) over any `SetVersion` call sequence
from the fresh state, the emitted conflict warnings are pairwise
distinct, and a message is in the reported-conflicts set at the end
exactly when it was emitted during the run; (b) in any single call that
observes a conflict situation with message `m` on an already-pinned
root, the warning is emitted exactly when `m` is not yet recorded, a
repeat observation finds `m` recorded and is suppressed, and after the
call `m` is recorded. Together: an identical conflict situation observed
N > 1 times is reported exactly once. -/
theorem conflict_dedup_C2 (rp : String) (conf : Config) (ro : String → String) :
    (∀ (cs : List Call) (ws : List String),
        (runCalls rp conf ro cs VHState.empty).map Prod.snd = some ws →
          ws.Nodup ∧
            ∀ m, ((runCalls rp conf ro cs VHState.empty).map
                (fun p => p.1.conflicts m) = some true ↔ m ∈ ws)) ∧
      (∀ (ir : ImportResult) (vr : Option String) (pkg : String) (s : VHState)
          (m : String),
        conflictObserved rp conf ro ir pkg s = some m →
          (s.conflicts m = false →
            (SetVersion rp conf ro ir vr pkg s).map (fun t => t.2.2) = some [m]) ∧
          (s.conflicts m = true →
            (SetVersion rp conf ro ir vr pkg s).map (fun t => t.2.2) = some []) ∧
          (SetVersion rp conf ro ir vr pkg s).map (fun t => t.1.conflicts m) =
            some true) := by
  constructor
  · intro cs ws h
    cases hr : runCalls rp conf ro cs VHState.empty with
    | none => rw [hr] at h; cases h
    | some p =>
      rw [hr] at h
      simp only [Option.map_some', Option.some.injEq] at h
      subst h
      obtain ⟨hnd, _, hiff⟩ := runCalls_conflicts_trace rp conf ro cs VHState.empty p hr
      refine ⟨hnd, ?_⟩
      intro m
      simp only [Option.map_some', Option.some.injEq]
      rw [hiff m]
      simp [VHState.empty]
  · intro ir vr pkg s m hobs
    exact setVersion_observed_emit rp conf ro ir vr pkg s m hobs

/-- C2 witness: a run in which the same conflict on root `a` is observed
twice emits its warning once; a single call at a state already recording
the message is suppressed. -/
theorem conflict_dedup_C2_witness :
    ((([conflictMsg "a" "" "r2"]) : List String).Nodup ∧
      ((runCalls "proj" conf0 GetRootFromPackage
          [⟨"a", ⟨true, [mkDep "a" "r1"], none⟩, none⟩,
           ⟨"b", ⟨true, [mkDep "a" "r2"], none⟩, none⟩,
           ⟨"a", ⟨true, [], none⟩, none⟩,
           ⟨"a", ⟨true, [], none⟩, none⟩] VHState.empty).map
          (fun p => p.1.conflicts (conflictMsg "a" "" "r2")) = some true ↔
        conflictMsg "a" "" "r2" ∈ ([conflictMsg "a" "" "r2"] : List String))) ∧
      ((SetVersion "proj" conf0 GetRootFromPackage ⟨true, [], none⟩ none "a"
          ⟨mapInsert VHState.empty.deps "a" (mkDep "a" "r1"),
           mapInsert VHState.empty.use "a" (mkDep "a" "r2"),
           setTrue VHState.empty.imported "a", VHState.empty.conflicts⟩).map
        (fun t => t.2.2) = some [conflictMsg "a" "" "r2"]) :=
  ⟨⟨(((conflict_dedup_C2 "proj" conf0 GetRootFromPackage).1
        [⟨"a", ⟨true, [mkDep "a" "r1"], none⟩, none⟩,
         ⟨"b", ⟨true, [mkDep "a" "r2"], none⟩, none⟩,
         ⟨"a", ⟨true, [], none⟩, none⟩,
         ⟨"a", ⟨true, [], none⟩, none⟩] [conflictMsg "a" "" "r2"] (by decide))).1,
    (((conflict_dedup_C2 "proj" conf0 GetRootFromPackage).1
        [⟨"a", ⟨true, [mkDep "a" "r1"], none⟩, none⟩,
         ⟨"b", ⟨true, [mkDep "a" "r2"], none⟩, none⟩,
         ⟨"a", ⟨true, [], none⟩, none⟩,
         ⟨"a", ⟨true, [], none⟩, none⟩] [conflictMsg "a" "" "r2"] (by decide))).2
      (conflictMsg "a" "" "r2")⟩,
   ((conflict_dedup_C2 "proj" conf0 GetRootFromPackage).2 ⟨true, [], none⟩ none "a"
      ⟨mapInsert VHState.empty.deps "a" (mkDep "a" "r1"),
       mapInsert VHState.empty.use "a" (mkDep "a" "r2"),
       setTrue VHState.empty.imported "a", VHState.empty.conflicts⟩
      (conflictMsg "a" "" "r2") (by decide)).1 (by decide)⟩

theorem GoError.msgs_ne_nil (e : GoError) : e.msgs ≠ [] := by
  induction e with
  | simple m => simp [GoError.msgs]
  | multi a b iha ihb => simp [GoError.msgs, iha]

theorem errMsgs_accumulateErr (acc : Option GoError) (m : String) :
    errMsgs (accumulateErr acc m) = errMsgs acc ++ [m] := by
  cases acc <;> simp [accumulateErr, errMsgs, GoError.msgs]

theorem concurrentUpdate_fold_msgs (upd : Dependency → Option String)
    (order : List Dependency) (acc : Option GoError) :
    errMsgs (order.foldl
      (fun acc dep => match upd dep with | none => acc | some m => accumulateErr acc m)
      acc) = errMsgs acc ++ order.filterMap upd := by
  induction order generalizing acc with
  | nil => simp
  | cons d ds ih =>
    simp only [List.foldl_cons, List.filterMap_cons]
    cases hu : upd d with
    | none => rw [ih]
    | some m => rw [ih, errMsgs_accumulateErr, List.append_assoc, List.singleton_append]

theorem errMsgs_eq_nil_iff (o : Option GoError) : errMsgs o = [] ↔ o = none := by
  cases o with
  | none => simp [errMsgs]
  | some e => simp [errMsgs, GoError.msgs_ne_nil e]

/-- C5: dispatcher aggregation under partial failure — for every
completion order of the worker pool (any permutation of the dependency
list), every record is attempted exactly once, the call returns `nil`
exactly when no record's update failed, and otherwise the combined error
contains precisely the failure messages of all failing records (up to
the nondeterministic completion order); no failure removes a sibling
from the attempted list. -/
theorem dispatcher_aggregation_C5 (deps order : List Dependency)
    (upd : Dependency → Option String) (hperm : order.Perm deps) :
    (ConcurrentUpdate upd order).1.Perm deps ∧
      ((ConcurrentUpdate upd order).2 = none ↔ ∀ d ∈ deps, upd d = none) ∧
      (∀ e, (ConcurrentUpdate upd order).2 = some e →
        (GoError.msgs e).Perm (deps.filterMap upd)) := by
  refine ⟨hperm, ?_, ?_⟩
  · rw [show (ConcurrentUpdate upd order).2 = none ↔
        errMsgs (ConcurrentUpdate upd order).2 = [] from (errMsgs_eq_nil_iff _).symm]
    unfold ConcurrentUpdate
    rw [concurrentUpdate_fold_msgs]
    simp only [errMsgs, List.nil_append]
    rw [List.filterMap_eq_nil_iff]
    constructor
    · intro h d hd
      exact h d (hperm.mem_iff.mpr hd)
    · intro h d hd
      exact h d (hperm.mem_iff.mp hd)
  · intro e he
    have h1 : errMsgs (ConcurrentUpdate upd order).2 = order.filterMap upd := by
      unfold ConcurrentUpdate
      rw [concurrentUpdate_fold_msgs]
      simp [errMsgs]
    rw [he] at h1
    simp only [errMsgs] at h1
    rw [h1]
    exact hperm.filterMap upd

/-- C5 witness: records `[A (fails), B (succeeds), C (fails)]` processed
in completion order `[B, C, A]` are all attempted; the combined error
holds exactly A's and C's failure messages. -/
theorem dispatcher_aggregation_C5_witness :
    (ConcurrentUpdate
        (fun d => if d.name = "B" then none else some (d.name ++ " failed"))
        [mkDep "B" "", mkDep "C" "", mkDep "A" ""]).1.Perm
      [mkDep "A" "", mkDep "B" "", mkDep "C" ""] ∧
    ¬((ConcurrentUpdate
        (fun d => if d.name = "B" then none else some (d.name ++ " failed"))
        [mkDep "B" "", mkDep "C" "", mkDep "A" ""]).2 = none) ∧
    (GoError.msgs (.multi (.simple "C failed") (.simple "A failed"))).Perm
      (List.filterMap (fun d => if d.name = "B" then none else some (d.name ++ " failed"))
        [mkDep "A" "", mkDep "B" "", mkDep "C" ""]) := by
  have h := dispatcher_aggregation_C5 [mkDep "A" "", mkDep "B" "", mkDep "C" ""]
    [mkDep "B" "", mkDep "C" "", mkDep "A" ""]
    (fun d => if d.name = "B" then none else some (d.name ++ " failed")) (by decide)
  refine ⟨h.1, ?_, ?_⟩
  · intro hnone
    have := (h.2.1).mp hnone (mkDep "A" "") (by decide)
    simp [mkDep] at this
  · exact h.2.2 (.multi (.simple "C failed") (.simple "A failed")) (by decide)

/-- The lockfile of C6's failing input: a single import whose update
fails. -/
def lockC6 : Lockfile := ⟨[⟨"exa/a", "1.0.0", "", "", [], [], []⟩], []⟩

/-- The update oracle of C6's failing input. -/
def updC6 : Dependency → Option String :=
  fun d => if d.name = "exa/a" then some "update failed" else none

/-- C6: `Install` builds the deduplicated import set from the lockfile
and runs the dispatcher over it, but the Go source discards both
`ConcurrentUpdate` return values and returns a `nil` error: at the
failing input (a lockfile with one import whose update fails) the
dispatcher produces a combined failure, yet `Install` returns no error —
the failure is not surfaced to `Install`'s caller. -/
theorem install_discards_errors_C6 :
    (Install none lockC6 conf0 updC6).2 = none ∧
      (Install none lockC6 conf0 updC6).1.imports = [lockToDep ⟨"exa/a", "1.0.0", "", "", [], [], []⟩] ∧
      (ConcurrentUpdate updC6 (Install none lockC6 conf0 updC6).1.imports).2 =
        some (.simple "update failed") := by
  decide

theorem mem_firstSeenAux (x : String) (l : List String) : ∀ acc,
    (x ∈ firstSeenAux acc l ↔ x ∈ acc ∨ x ∈ l) := by
  induction l with
  | nil => intro acc; simp [firstSeenAux]
  | cons y ys ih =>
    intro acc
    rw [firstSeenAux, ih]
    by_cases hy : y ∈ acc
    · rw [if_pos hy]
      constructor
      · rintro (h | h)
        · exact Or.inl h
        · exact Or.inr (List.mem_cons_of_mem _ h)
      · rintro (h | h)
        · exact Or.inl h
        · rcases List.mem_cons.mp h with rfl | h
          · exact Or.inl hy
          · exact Or.inr h
    · rw [if_neg hy]
      simp only [List.mem_append, List.mem_singleton]
      constructor
      · rintro ((h | h) | h)
        · exact Or.inl h
        · exact Or.inr (h ▸ List.mem_cons_self _ _)
        · exact Or.inr (List.mem_cons_of_mem _ h)
      · rintro (h | h)
        · exact Or.inl (Or.inl h)
        · rcases List.mem_cons.mp h with rfl | h
          · exact Or.inl (Or.inr rfl)
          · exact Or.inr h

theorem mem_firstSeen (x : String) (l : List String) : x ∈ firstSeen l ↔ x ∈ l := by
  rw [firstSeen, mem_firstSeenAux]
  simp

theorem firstSeenAux_concat (x : String) (l : List String) : ∀ acc,
    firstSeenAux acc (l ++ [x]) =
      if x ∈ firstSeenAux acc l then firstSeenAux acc l else firstSeenAux acc l ++ [x] := by
  induction l with
  | nil => intro acc; simp [firstSeenAux]
  | cons y ys ih =>
    intro acc
    simp only [List.cons_append, firstSeenAux]
    exact ih _

theorem firstSeen_concat (l : List String) (x : String) :
    firstSeen (l ++ [x]) =
      if x ∈ firstSeen l then firstSeen l else firstSeen l ++ [x] :=
  firstSeenAux_concat x l []

theorem subsFor_concat (norm : String → String × String) (rr : String)
    (l : List String) (p : String) :
    subsFor norm rr (l ++ [p]) =
      subsFor norm rr l ++
        (if (norm p).1 = rr then (if (norm p).2 = "" then [] else [(norm p).2]) else []) := by
  unfold subsFor
  rw [List.filter_append, List.filterMap_append]
  congr 1
  by_cases h1 : (norm p).1 = rr
  · by_cases h2 : (norm p).2 = "" <;>
      simp [List.filter_singleton, subOfPkg, h1, h2]
  · simp [List.filter_singleton, subOfPkg, h1]

theorem subsFor_eq_nil (norm : String → String × String) (rr : String)
    (l : List String) (h : rr ∉ l.map (fun p => (norm p).1)) :
    subsFor norm rr l = [] := by
  unfold subsFor
  have hf : l.filter (fun p => (norm p).1 == rr) = [] := by
    rw [List.filter_eq_nil_iff]
    intro p hp hc
    exact h (List.mem_map.mpr ⟨p, hp, by simpa using hc⟩)
  rw [hf]
  rfl

theorem depsFromPackages_concat (norm : String → String × String)
    (l : List String) (p : String) :
    depsFromPackages norm (l ++ [p]) = addPkg norm (depsFromPackages norm l) p := by
  unfold depsFromPackages
  rw [List.foldl_append]
  rfl

theorem map_name_update (rr sp : String) (L : List Dependency) :
    (L.map (fun d =>
      if d.name == rr then { d with subpackages := d.subpackages ++ [sp] } else d)).map
        Dependency.name = L.map Dependency.name := by
  rw [List.map_map]
  apply List.map_congr_left
  intro d _
  dsimp only [Function.comp]
  split <;> rfl

theorem depsFromPackages_spec (norm : String → String × String) (pkgs : List String) :
    (depsFromPackages norm pkgs).map Dependency.name =
        firstSeen (pkgs.map (fun p => (norm p).1)) ∧
      ∀ d ∈ depsFromPackages norm pkgs, d.subpackages = subsFor norm d.name pkgs := by
  induction pkgs using List.reverseRecOn with
  | nil =>
    refine ⟨rfl, ?_⟩
    intro d hd
    simp [depsFromPackages] at hd
  | append_singleton l p ih =>
    obtain ⟨ihn, ihs⟩ := ih
    rw [depsFromPackages_concat, List.map_append, List.map_singleton, firstSeen_concat]
    unfold addPkg
    by_cases hany :
        (depsFromPackages norm l).any (fun d => d.name == (norm p).1) = true
    · have hmem : (norm p).1 ∈ firstSeen (l.map (fun q => (norm q).1)) := by
        rw [← ihn]
        rcases List.any_eq_true.mp hany with ⟨d, hd, hdn⟩
        exact List.mem_map.mpr ⟨d, hd, beq_iff_eq.mp hdn⟩
      rw [if_pos hany, if_pos hmem]
      by_cases hsp : (norm p).2 ≠ ""
      · rw [if_pos hsp]
        refine ⟨?_, ?_⟩
        · rw [map_name_update, ihn]
        · intro d' hd'
          obtain ⟨d, hd, rfl⟩ := List.mem_map.mp hd'
          by_cases hdn : (d.name == (norm p).1) = true
          · rw [if_pos hdn]
            dsimp only
            rw [subsFor_concat, if_pos (beq_iff_eq.mp hdn).symm,
              if_neg (by simpa using hsp), ihs d hd]
          · rw [if_neg hdn]
            rw [subsFor_concat,
              if_neg (fun hc => hdn (beq_iff_eq.mpr hc.symm)), List.append_nil,
              ihs d hd]
      · rw [if_neg hsp]
        refine ⟨ihn, ?_⟩
        intro d hd
        rw [subsFor_concat]
        by_cases hdn : (norm p).1 = d.name
        · rw [if_pos hdn, if_pos (by simpa using hsp), List.append_nil, ihs d hd]
        · rw [if_neg hdn, List.append_nil, ihs d hd]
    · have hnotmem : (norm p).1 ∉ firstSeen (l.map (fun q => (norm q).1)) := by
        rw [← ihn]
        intro hc
        obtain ⟨d, hd, hdn⟩ := List.mem_map.mp hc
        exact hany (List.any_eq_true.mpr ⟨d, hd, beq_iff_eq.mpr hdn⟩)
      rw [if_neg hany, if_neg hnotmem]
      refine ⟨?_, ?_⟩
      · rw [List.map_append, ihn]
        rfl
      · intro d' hd'
        rcases List.mem_append.mp hd' with hd | hd
        · rw [subsFor_concat]
          have hne : (norm p).1 ≠ d'.name := by
            intro hc
            rw [List.any_eq_true] at hany
            exact hany ⟨d', hd, beq_iff_eq.mpr hc.symm⟩
          rw [if_neg hne, List.append_nil]
          exact ihs d' hd
        · rw [List.mem_singleton] at hd
          subst hd
          dsimp only
          rw [subsFor_concat, if_pos rfl,
            subsFor_eq_nil norm _ l (fun hc => hnotmem ((mem_firstSeen _ _).mpr hc)),
            List.nil_append]

/-- C7 counterexample: for the input `["a/x", "a/x"]` the aggregator
produces the record for root `a` with subpackage list `["x", "x"]` — the
suffix appears twice, refuting the claim that each record's subpackage
list is without duplicates (the Go source appends without a member
check). -/
theorem aggregator_C7_counterexample :
    depsFromPackages NormalizeName ["a/x", "a/x"] =
      [{ name := "a", reference := "", pin := "", repository := "", vcsType := "",
         subpackages := ["x", "x"], arch := [], os := [] }] := by
  decide

/-- C7 (amended): for every ordered input sequence the aggregator
produces exactly one dependency record per distinct repository root, in
first-seen order, and each record's subpackage list is the list of all
non-empty subpackage suffixes seen for that root, in seen order, with
duplicates retained (not a duplicate-free union); in particular for
input `["a/x", "b/y", "a/z"]` it produces the record for `a` with
subpackages `[x, z]` followed by the record for `b` with subpackages
`[y]`. -/
theorem aggregator_C7 (norm : String → String × String) (pkgs : List String) :
    (depsFromPackages norm pkgs).map Dependency.name =
        firstSeen (pkgs.map (fun p => (norm p).1)) ∧
      (∀ d ∈ depsFromPackages norm pkgs, d.subpackages = subsFor norm d.name pkgs) ∧
      depsFromPackages NormalizeName ["a/x", "b/y", "a/z"] =
        [{ name := "a", reference := "", pin := "", repository := "", vcsType := "",
           subpackages := ["x", "z"], arch := [], os := [] },
         { name := "b", reference := "", pin := "", repository := "", vcsType := "",
           subpackages := ["y"], arch := [], os := [] }] :=
  ⟨(depsFromPackages_spec norm pkgs).1, (depsFromPackages_spec norm pkgs).2, by decide⟩

/-- C7 witness: the aggregated record list of `["a/x", "b/y", "a/z"]`
has roots `[a, b]` in first-seen order, and record `a` carries exactly
the suffixes `[x, z]`. -/
theorem aggregator_C7_witness :
    (depsFromPackages NormalizeName ["a/x", "b/y", "a/z"]).map Dependency.name =
        firstSeen (["a/x", "b/y", "a/z"].map (fun p => (NormalizeName p).1)) ∧
      ({ name := "a", reference := "", pin := "", repository := "", vcsType := "",
         subpackages := ["x", "z"], arch := [], os := [] } : Dependency).subpackages =
        subsFor NormalizeName "a" ["a/x", "b/y", "a/z"] :=
  ⟨(aggregator_C7 NormalizeName ["a/x", "b/y", "a/z"]).1,
   (aggregator_C7 NormalizeName ["a/x", "b/y", "a/z"]).2.1
     { name := "a", reference := "", pin := "", repository := "", vcsType := "",
       subpackages := ["x", "z"], arch := [], os := [] } (by decide)⟩

end Glide
